import Mathlib

/-!
Verification development for a multilingual text-to-speech gateway
(single-file Flask application `app.py`).

The pipeline under study: text normalization (`clean_text`), chunking
(`smart_chunk_text`), voice selection (`get_voice_for_text`), concurrent
synthesis scheduling (`generate_all_chunks`), audio assembly
(`combine_audio_segments`) and the request handler (`generate_tts`).

Strings are embedded as `List Char` (Python `len` counts code points, as
does `List.length` here).  Python's Unicode-aware character classes
(`\s`, `\w`, `str.strip`) are modelled by their ASCII cores plus the
explicitly whitelisted Tamil block, as noted at each definition.
-/

/-- Model of Python whitespace (`\s`, `str.strip()`, `str.split()`),
restricted to the ASCII whitespace characters. -/
def isWsM (c : Char) : Bool :=
  c = ' ' || c = '\t' || c = '\n' || c = '\r' || c = '\x0b' || c = '\x0c'

/-- The character class of `SENTENCE_PATTERN = re.compile(r'[.!?]+')`. -/
def isSentSep (c : Char) : Bool :=
  c = '.' || c = '!' || c = '?'

/-- The character class of `SUB_PATTERN = re.compile(r'[,;]+')`. -/
def isSubSep (c : Char) : Bool :=
  c = ',' || c = ';'

/-- `MAX_CHUNK_LENGTH = 80` from the configuration block. -/
def MAX_CHUNK_LENGTH : Nat := 80

/-- Accumulator-passing tokenizer: the maximal nonempty runs of
characters not satisfying `p`, in order.  `acc` holds the (reversed)
current partial token.  This is the semantics of Python `str.split()`
(with `p` = whitespace) and of `re.split` on `[X]+` with empty pieces
discarded. -/
def tokensAux (p : Char → Bool) : List Char → List Char → List (List Char)
  | [], acc => if acc.isEmpty then [] else [acc.reverse]
  | c :: cs, acc =>
    if p c then (if acc.isEmpty then [] else [acc.reverse]) ++ tokensAux p cs []
    else tokensAux p cs (c :: acc)

/-- The maximal nonempty runs of non-`p` characters of `s`, in order. -/
def tokens (p : Char → Bool) (s : List Char) : List (List Char) :=
  tokensAux p s []

/-- Model of `re.split` with a pattern of the form `[X]+`: pieces between
maximal runs of separator characters, keeping empty pieces at the string
boundaries (exactly Python's `re.split` result).  `inRun` records that we
are inside a separator run whose boundary piece was already emitted. -/
def splitRunsAux (q : Char → Bool) : List Char → List Char → Bool → List (List Char)
  | [], acc, _ => [acc.reverse]
  | c :: cs, acc, inRun =>
    if q c then
      if inRun then splitRunsAux q cs acc inRun
      else acc.reverse :: splitRunsAux q cs [] true
    else splitRunsAux q cs (c :: acc) false

/-- Model of `re.split(r'[X]+', s)` where `q` is the class `[X]`. -/
def splitRuns (q : Char → Bool) (s : List Char) : List (List Char) :=
  splitRunsAux q s [] false

/-- Remove trailing whitespace (the right half of Python `str.strip()`). -/
def dropTrailingWs : List Char → List Char
  | [] => []
  | c :: cs =>
    let r := dropTrailingWs cs
    if r.isEmpty && isWsM c then [] else c :: r

/-- Model of Python `str.strip()` (ASCII whitespace model). -/
def stripList (s : List Char) : List Char :=
  dropTrailingWs (s.dropWhile isWsM)

/-- Model of Python `str.split()`: whitespace-separated words. -/
def wordsOf (s : List Char) : List (List Char) :=
  tokens isWsM s

/-- The word-level greedy packing loop of `smart_chunk_text` (lines
151-159 of `app.py`): pack whitespace-split words of an over-long
sub-part into space-joined chunks of at most `MAX_CHUNK_LENGTH`,
flushing the accumulator on overflow.  Returns the flushed chunks in
order together with the final accumulator value. -/
def packWords : List (List Char) → List Char → List (List Char) × List Char
  | [], cur => ([], cur)
  | w :: ws, cur =>
    if cur.length + w.length + 1 ≤ MAX_CHUNK_LENGTH then
      packWords ws (if cur.isEmpty then w else cur ++ ' ' :: w)
    else
      let r := packWords ws w
      ((if cur.isEmpty then r.1 else cur :: r.1), r.2)

/-- The sub-part packing loop of `smart_chunk_text` (lines 138-161 of
`app.py`): greedily pack the comma/semicolon-split sub-parts, joined by
`", "`, into the accumulator; flush on overflow; fall back to word-level
packing for a sub-part that alone exceeds the limit.  Returns flushed
chunks in order together with the final accumulator. -/
def packParts : List (List Char) → List Char → List (List Char) × List Char
  | [], cur => ([], cur)
  | p :: ps, cur =>
    let part := stripList p
    if part.isEmpty then packParts ps cur
    else if cur.length + part.length + 2 ≤ MAX_CHUNK_LENGTH then
      packParts ps (if cur.isEmpty then part else cur ++ ',' :: ' ' :: part)
    else
      let pre := if cur.isEmpty then ([] : List (List Char)) else [cur]
      if MAX_CHUNK_LENGTH < part.length then
        let rw := packWords (wordsOf part) []
        let rp := packParts ps rw.2
        (pre ++ rw.1 ++ rp.1, rp.2)
      else
        let rp := packParts ps part
        (pre ++ rp.1, rp.2)

/-- `smart_chunk_text` (lines 114-166 of `app.py`): split on sentence
terminator runs, strip and drop empty sentences, emit short sentences
directly, and pack long sentences via `packParts`/`packWords`, flushing
the trailing accumulator per sentence. -/
def smart_chunk_text (text : List Char) : List (List Char) :=
  (splitRuns isSentSep text).flatMap (fun s0 =>
    let s := stripList s0
    if s.isEmpty then []
    else if s.length ≤ MAX_CHUNK_LENGTH then [s]
    else
      let pr := packParts (splitRuns isSubSep s) []
      pr.1 ++ (if pr.2.isEmpty then [] else [pr.2]))


/-! ### Lemmas about the tokenizer -/

theorem tokensAux_nil (p : Char → Bool) (acc : List Char) :
    tokensAux p [] acc = if acc.isEmpty then [] else [acc.reverse] := rfl

theorem tokensAux_append_sep (p : Char → Bool) {c : Char} (hc : p c = true) :
    ∀ (a b acc : List Char),
      tokensAux p (a ++ c :: b) acc = tokensAux p a acc ++ tokensAux p b [] := by
  intro a
  induction a with
  | nil =>
    intro b acc
    simp [tokensAux, hc]
  | cons x xs ih =>
    intro b acc
    simp only [List.cons_append, tokensAux]
    by_cases hx : p x
    · simp [hx, ih, List.append_assoc]
    · simp [hx, ih]

theorem tokens_cons_sep (p : Char → Bool) {c : Char} (hc : p c = true) (b : List Char) :
    tokens p (c :: b) = tokens p b := by
  simp [tokens, tokensAux, hc]

theorem tokensAux_all_sep (p : Char → Bool) :
    ∀ (s acc : List Char), (∀ c ∈ s, p c = true) →
      tokensAux p s acc = if acc.isEmpty then [] else [acc.reverse] := by
  intro s
  induction s with
  | nil => intro acc _; rfl
  | cons x xs ih =>
    intro acc h
    have hx : p x = true := h x (List.mem_cons_self x xs)
    have hxs : ∀ c ∈ xs, p c = true := fun c hc => h c (List.mem_cons_of_mem x hc)
    simp [tokensAux, hx, ih [] hxs]

theorem tokensAux_append_all_sep (p : Char → Bool) {t : List Char}
    (ht : ∀ c ∈ t, p c = true) :
    ∀ (a acc : List Char), tokensAux p (a ++ t) acc = tokensAux p a acc := by
  intro a
  induction a with
  | nil =>
    intro acc
    simp [tokensAux_all_sep p t acc ht, tokensAux]
  | cons x xs ih =>
    intro acc
    by_cases hx : p x
    · simp [tokensAux, hx, ih]
    · simp [tokensAux, hx, ih]

theorem tokensAux_ne_nil (p : Char → Bool) :
    ∀ (s acc : List Char), acc ≠ [] → tokensAux p s acc ≠ [] := by
  intro s
  induction s with
  | nil =>
    intro acc h
    simp [tokensAux, h]
  | cons x xs ih =>
    intro acc h
    by_cases hx : p x
    · simp [tokensAux, hx, h]
    · simpa [tokensAux, hx] using ih (x :: acc) (by simp)

theorem tokens_eq_nil_iff (p : Char → Bool) (s : List Char) :
    tokens p s = [] ↔ ∀ c ∈ s, p c = true := by
  constructor
  · intro h
    induction s with
    | nil => simp
    | cons x xs ih =>
      by_cases hx : p x
      · intro c hc
        rcases List.mem_cons.mp hc with rfl | hc'
        · exact hx
        · have : tokens p xs = [] := by
            simpa [tokens, tokensAux, hx] using h
          exact ih this c hc'
      · exfalso
        have : tokensAux p xs [x] ≠ [] := tokensAux_ne_nil p xs [x] (by simp)
        exact this (by simpa [tokens, tokensAux, hx] using h)
  · intro h
    simp [tokens, tokensAux_all_sep p s [] h]

theorem tokensAux_no_sep (p : Char → Bool) :
    ∀ (s acc : List Char), (∀ c ∈ s, p c = false) → s ≠ [] →
      tokensAux p s acc = [acc.reverse ++ s] := by
  intro s
  induction s with
  | nil => intro acc _ h; exact absurd rfl h
  | cons x xs ih =>
    intro acc h _
    have hx : p x = false := h x (List.mem_cons_self x xs)
    have hxs : ∀ c ∈ xs, p c = false := fun c hc => h c (List.mem_cons_of_mem x hc)
    rcases eq_or_ne xs [] with hnil | hne
    · subst hnil
      simp [tokensAux, hx]
    · have := ih (x :: acc) hxs hne
      simp only [tokensAux, hx, Bool.false_eq_true, if_false]
      rw [this]
      simp

theorem tokens_no_sep (p : Char → Bool) (s : List Char)
    (h : ∀ c ∈ s, p c = false) (hne : s ≠ []) : tokens p s = [s] := by
  simpa [tokens] using tokensAux_no_sep p s [] h hne

theorem tokensAux_congr {p q : Char → Bool} :
    ∀ (s acc : List Char), (∀ c ∈ s, p c = q c) →
      tokensAux p s acc = tokensAux q s acc := by
  intro s
  induction s with
  | nil => intro acc _; rfl
  | cons x xs ih =>
    intro acc h
    have hx : p x = q x := h x (List.mem_cons_self x xs)
    have hxs : ∀ c ∈ xs, p c = q c := fun c hc => h c (List.mem_cons_of_mem x hc)
    by_cases hq : q x
    · simp [tokensAux, hx, hq, ih [] hxs]
    · have hq' : q x = false := by simpa using hq
      simp [tokensAux, hx, hq', ih (x :: acc) hxs]

theorem tokensAux_mem_good (p : Char → Bool) :
    ∀ (s acc w : List Char), (∀ c ∈ acc, p c = false) →
      w ∈ tokensAux p s acc → w ≠ [] ∧ ∀ c ∈ w, p c = false := by
  intro s
  induction s with
  | nil =>
    intro acc w hacc hw
    by_cases h : acc.isEmpty
    · simp [tokensAux, h] at hw
    · simp [tokensAux, h] at hw
      subst hw
      refine ⟨by simpa [List.isEmpty_iff] using h, ?_⟩
      intro c hc
      exact hacc c (by simpa using hc)
  | cons x xs ih =>
    intro acc w hacc hw
    by_cases hx : p x
    · simp only [tokensAux, hx, if_pos rfl] at hw
      rcases List.mem_append.mp hw with h1 | h2
      · by_cases h : acc.isEmpty
        · simp [h] at h1
        · simp [h] at h1
          subst h1
          refine ⟨by simpa [List.isEmpty_iff] using h, ?_⟩
          intro c hc
          exact hacc c (by simpa using hc)
      · exact ih [] w (by simp) h2
    · have hx' : p x = false := by simpa using hx
      simp only [tokensAux, hx', Bool.false_eq_true, if_false] at hw
      refine ih (x :: acc) w ?_ hw
      intro c hc
      rcases List.mem_cons.mp hc with rfl | hc'
      · exact hx'
      · exact hacc c hc'

theorem tokensAux_mem_subset (p : Char → Bool) :
    ∀ (s acc w : List Char) (A : Char → Prop), (∀ c ∈ acc, A c) → (∀ c ∈ s, A c) →
      w ∈ tokensAux p s acc → ∀ c ∈ w, A c := by
  intro s
  induction s with
  | nil =>
    intro acc w A hacc _ hw
    by_cases h : acc.isEmpty
    · simp [tokensAux, h] at hw
    · simp [tokensAux, h] at hw
      subst hw
      intro c hc
      exact hacc c (by simpa using hc)
  | cons x xs ih =>
    intro acc w A hacc hs hw
    have hxA : A x := hs x (List.mem_cons_self x xs)
    have hsA : ∀ c ∈ xs, A c := fun c hc => hs c (List.mem_cons_of_mem x hc)
    by_cases hx : p x
    · simp only [tokensAux, hx, if_pos rfl] at hw
      rcases List.mem_append.mp hw with h1 | h2
      · by_cases h : acc.isEmpty
        · simp [h] at h1
        · simp [h] at h1
          subst h1
          intro c hc
          exact hacc c (by simpa using hc)
      · exact ih [] w A (by simp) hsA h2
    · have hx' : p x = false := by simpa using hx
      simp only [tokensAux, hx', Bool.false_eq_true, if_false] at hw
      refine ih (x :: acc) w A ?_ hsA hw
      intro c hc
      rcases List.mem_cons.mp hc with rfl | hc'
      · exact hxA
      · exact hacc c hc'

/-! ### Lemmas about run-splitting and stripping -/

theorem splitRunsAux_flatMap_tokens {p q : Char → Bool} (hpq : ∀ c, q c = true → p c = true) :
    ∀ (s acc : List Char) (flag : Bool), (flag = true → acc = []) →
      (splitRunsAux q s acc flag).flatMap (tokens p) = tokens p (acc.reverse ++ s) := by
  intro s
  induction s with
  | nil =>
    intro acc flag _
    simp [splitRunsAux, tokens]
  | cons x xs ih =>
    intro acc flag hflag
    by_cases hx : q x
    · have hpx : p x = true := hpq x hx
      cases flag with
      | true =>
        have : acc = [] := hflag rfl
        subst this
        simp only [splitRunsAux, hx, if_pos rfl, if_true]
        rw [ih [] true (fun _ => rfl)]
        simp [tokens_cons_sep p hpx]
      | false =>
        simp only [splitRunsAux, hx, if_pos rfl, Bool.false_eq_true, if_false, if_true]
        rw [List.flatMap_cons, ih [] true (fun _ => rfl)]
        simp only [tokens, List.reverse_nil, List.nil_append]
        rw [tokensAux_append_sep p hpx acc.reverse xs []]
    · have hx' : q x = false := by simpa using hx
      simp only [splitRunsAux, hx', Bool.false_eq_true, if_false]
      rw [ih (x :: acc) false (by simp)]
      simp

theorem splitRuns_flatMap_tokens {p q : Char → Bool} (hpq : ∀ c, q c = true → p c = true)
    (s : List Char) : (splitRuns q s).flatMap (tokens p) = tokens p s := by
  simpa [splitRuns] using splitRunsAux_flatMap_tokens hpq s [] false (by simp)

theorem splitRunsAux_mem_no_q (q : Char → Bool) :
    ∀ (s acc : List Char) (flag : Bool) (piece : List Char),
      (∀ c ∈ acc, q c = false) → piece ∈ splitRunsAux q s acc flag →
      ∀ c ∈ piece, q c = false := by
  intro s
  induction s with
  | nil =>
    intro acc flag piece hacc hp
    simp [splitRunsAux] at hp
    subst hp
    intro c hc
    exact hacc c (by simpa using hc)
  | cons x xs ih =>
    intro acc flag piece hacc hp
    by_cases hx : q x
    · cases flag with
      | true =>
        simp only [splitRunsAux, hx, if_pos rfl, if_true] at hp
        exact ih acc true piece hacc hp
      | false =>
        simp only [splitRunsAux, hx, if_pos rfl, Bool.false_eq_true, if_false] at hp
        rcases List.mem_cons.mp hp with rfl | hp'
        · intro c hc
          exact hacc c (by simpa using hc)
        · exact ih [] true piece (by simp) hp'
    · have hx' : q x = false := by simpa using hx
      simp only [splitRunsAux, hx', Bool.false_eq_true, if_false] at hp
      refine ih (x :: acc) false piece ?_ hp
      intro c hc
      rcases List.mem_cons.mp hc with rfl | hc'
      · exact hx'
      · exact hacc c hc'

theorem splitRunsAux_mem_subset (q : Char → Bool) :
    ∀ (s acc : List Char) (flag : Bool) (piece : List Char) (A : Char → Prop),
      (∀ c ∈ acc, A c) → (∀ c ∈ s, A c) → piece ∈ splitRunsAux q s acc flag →
      ∀ c ∈ piece, A c := by
  intro s
  induction s with
  | nil =>
    intro acc flag piece A hacc _ hp
    simp [splitRunsAux] at hp
    subst hp
    intro c hc
    exact hacc c (by simpa using hc)
  | cons x xs ih =>
    intro acc flag piece A hacc hs hp
    have hxA : A x := hs x (List.mem_cons_self x xs)
    have hsA : ∀ c ∈ xs, A c := fun c hc => hs c (List.mem_cons_of_mem x hc)
    by_cases hx : q x
    · cases flag with
      | true =>
        simp only [splitRunsAux, hx, if_pos rfl, if_true] at hp
        exact ih acc true piece A hacc hsA hp
      | false =>
        simp only [splitRunsAux, hx, if_pos rfl, Bool.false_eq_true, if_false] at hp
        rcases List.mem_cons.mp hp with rfl | hp'
        · intro c hc
          exact hacc c (by simpa using hc)
        · exact ih [] true piece A (by simp) hsA hp'
    · have hx' : q x = false := by simpa using hx
      simp only [splitRunsAux, hx', Bool.false_eq_true, if_false] at hp
      refine ih (x :: acc) false piece A ?_ hsA hp
      intro c hc
      rcases List.mem_cons.mp hc with rfl | hc'
      · exact hxA
      · exact hacc c hc'

theorem dropTrailingWs_decomp (s : List Char) :
    ∃ t, s = dropTrailingWs s ++ t ∧ ∀ c ∈ t, isWsM c = true := by
  induction s with
  | nil => exact ⟨[], rfl, by simp⟩
  | cons x xs ih =>
    rcases ih with ⟨t, ht, hws⟩
    by_cases hcond : (dropTrailingWs xs).isEmpty ∧ isWsM x
    · refine ⟨x :: t, ?_, ?_⟩
      · have hx : dropTrailingWs xs = [] := by
          simpa [List.isEmpty_iff] using hcond.1
        simp only [dropTrailingWs, hx]
        simp only [hx, List.nil_append] at ht
        simp [ht, hcond.2, hcond.1]
      · intro c hc
        rcases List.mem_cons.mp hc with rfl | hc'
        · exact hcond.2
        · exact hws c hc'
    · refine ⟨t, ?_, hws⟩
      have : dropTrailingWs (x :: xs) = x :: dropTrailingWs xs := by
        simp only [dropTrailingWs]
        rw [if_neg]
        intro h
        exact hcond ⟨by simpa using (Bool.and_eq_true _ _ |>.mp h).1,
          (Bool.and_eq_true _ _ |>.mp h).2⟩
      rw [this]
      simpa using ht

theorem dropTrailingWs_subset {c : Char} :
    ∀ {s : List Char}, c ∈ dropTrailingWs s → c ∈ s := by
  intro s
  induction s with
  | nil => intro h; simp [dropTrailingWs] at h
  | cons x xs ih =>
    intro h
    simp only [dropTrailingWs] at h
    by_cases hcond : (dropTrailingWs xs).isEmpty && isWsM x
    · simp [hcond] at h
    · rw [if_neg (by simpa using hcond)] at h
      rcases List.mem_cons.mp h with rfl | h'
      · exact List.mem_cons_self c xs
      · exact List.mem_cons_of_mem x (ih h')

theorem stripList_subset {c : Char} {s : List Char} (h : c ∈ stripList s) : c ∈ s := by
  have h1 : c ∈ s.dropWhile isWsM := dropTrailingWs_subset h
  exact (List.dropWhile_sublist isWsM).mem h1

theorem tokens_dropWhile_ws {p : Char → Bool} (hp : ∀ c, isWsM c = true → p c = true) :
    ∀ s : List Char, tokens p (s.dropWhile isWsM) = tokens p s := by
  intro s
  induction s with
  | nil => rfl
  | cons x xs ih =>
    by_cases hx : isWsM x
    · rw [List.dropWhile_cons_of_pos (by simpa using hx), ih,
        tokens_cons_sep p (hp x hx)]
    · rw [List.dropWhile_cons_of_neg (by simpa using hx)]

theorem tokens_stripList {p : Char → Bool} (hp : ∀ c, isWsM c = true → p c = true)
    (s : List Char) : tokens p (stripList s) = tokens p s := by
  rcases dropTrailingWs_decomp (s.dropWhile isWsM) with ⟨t, ht, hws⟩
  have htp : ∀ c ∈ t, p c = true := fun c hc => hp c (hws c hc)
  have key : tokens p (dropTrailingWs (s.dropWhile isWsM) ++ t)
      = tokens p (dropTrailingWs (s.dropWhile isWsM)) := by
    simpa [tokens] using tokensAux_append_all_sep p htp (dropTrailingWs (s.dropWhile isWsM)) []
  calc tokens p (stripList s) = tokens p (dropTrailingWs (s.dropWhile isWsM)) := rfl
    _ = tokens p (dropTrailingWs (s.dropWhile isWsM) ++ t) := key.symm
    _ = tokens p (s.dropWhile isWsM) := by rw [← ht]
    _ = tokens p s := tokens_dropWhile_ws hp s

/-! ### Chunk shape invariants (for the length bound and edge-cleanliness) -/

/-- A chunk containing no whitespace at all (a single word token). -/
def noWsChunk (c : List Char) : Prop := ∀ x ∈ c, isWsM x = false

/-- A nonempty chunk with no leading and no trailing whitespace. -/
def edgeClean (c : List Char) : Prop :=
  c ≠ [] ∧ (∀ x ∈ c.head?, isWsM x = false) ∧ (∀ x ∈ c.getLast?, isWsM x = false)

/-- Every chunk the chunker emits is edge-clean and either within the
length limit or a single whitespace-free word token. -/
def goodChunk (c : List Char) : Prop :=
  edgeClean c ∧ (c.length ≤ MAX_CHUNK_LENGTH ∨ noWsChunk c)

theorem dropWhile_ws_head (s : List Char) :
    ∀ x ∈ (s.dropWhile isWsM).head?, isWsM x = false := by
  induction s with
  | nil => simp
  | cons c cs ih =>
    by_cases hc : isWsM c
    · rw [List.dropWhile_cons_of_pos (by simpa using hc)]
      exact ih
    · rw [List.dropWhile_cons_of_neg (by simpa using hc)]
      intro x hx
      simp only [List.head?_cons, Option.mem_def, Option.some.injEq] at hx
      subst hx
      simpa using hc

theorem dropTrailingWs_head? (s : List Char) (h : dropTrailingWs s ≠ []) :
    (dropTrailingWs s).head? = s.head? := by
  cases s with
  | nil => simp [dropTrailingWs] at h
  | cons x xs =>
    simp only [dropTrailingWs] at h ⊢
    by_cases hcond : (dropTrailingWs xs).isEmpty && isWsM x
    · simp [hcond] at h
    · rw [if_neg (by simpa using hcond)]
      simp

theorem dropTrailingWs_last (s : List Char) :
    ∀ x ∈ (dropTrailingWs s).getLast?, isWsM x = false := by
  induction s with
  | nil => simp [dropTrailingWs]
  | cons c cs ih =>
    simp only [dropTrailingWs]
    by_cases hcond : (dropTrailingWs cs).isEmpty && isWsM c
    · simp [hcond]
    · rw [if_neg (by simpa using hcond)]
      rcases hr : dropTrailingWs cs with _ | ⟨y, ys⟩
      · have hcond' : ¬((dropTrailingWs cs).isEmpty = true ∧ isWsM c = true) := by
          simpa [Bool.and_eq_true] using hcond
        have hcw : isWsM c = false := by
          by_cases h' : isWsM c = true
          · exact absurd ⟨by simp [hr], h'⟩ hcond'
          · simpa using h'
        intro x hx
        have hx' : c = x := by simpa using hx
        rw [← hx']
        exact hcw
      · intro x hx
        rw [List.getLast?_cons_cons] at hx
        rw [← hr] at hx
        exact ih x hx

theorem stripList_edgeClean (s : List Char) (h : stripList s ≠ []) :
    edgeClean (stripList s) := by
  refine ⟨h, ?_, ?_⟩
  · intro x hx
    rw [stripList, dropTrailingWs_head? _ (by simpa [stripList] using h)] at hx
    exact dropWhile_ws_head s x hx
  · intro x hx
    exact dropTrailingWs_last _ x hx

theorem edgeClean_append_sep (a sep b : List Char) (ha : edgeClean a) (hb : edgeClean b) :
    edgeClean (a ++ sep ++ b) := by
  obtain ⟨hane, hah, _⟩ := ha
  obtain ⟨hbne, _, hbl⟩ := hb
  refine ⟨by simp [hbne], ?_, ?_⟩
  · intro x hx
    cases a with
    | nil => exact absurd rfl hane
    | cons y ys =>
      have hx' : y = x := by simpa using hx
      rw [← hx']
      exact hah y (by simp)
  · intro x hx
    rw [List.getLast?_append_of_ne_nil _ hbne] at hx
    exact hbl x hx

theorem noWs_edgeClean {w : List Char} (hne : w ≠ []) (h : noWsChunk w) : edgeClean w := by
  refine ⟨hne, ?_, ?_⟩
  · intro x hx
    exact h x (List.mem_of_mem_head? hx)
  · intro x hx
    exact h x (List.mem_of_mem_getLast? hx)

theorem packWords_good :
    ∀ (words : List (List Char)) (cur : List Char),
      (∀ w ∈ words, w ≠ [] ∧ noWsChunk w) → (cur = [] ∨ goodChunk cur) →
      (∀ c ∈ (packWords words cur).1, goodChunk c) ∧
      ((packWords words cur).2 = [] ∨ goodChunk (packWords words cur).2) := by
  intro words
  induction words with
  | nil =>
    intro cur _ hcur
    exact ⟨by simp [packWords], hcur⟩
  | cons w ws ih =>
    intro cur hws hcur
    have hw := hws w (List.mem_cons_self w ws)
    have hws' : ∀ v ∈ ws, v ≠ [] ∧ noWsChunk v :=
      fun v hv => hws v (List.mem_cons_of_mem w hv)
    have hwgood : goodChunk w := ⟨noWs_edgeClean hw.1 hw.2, Or.inr hw.2⟩
    by_cases hfit : cur.length + w.length + 1 ≤ MAX_CHUNK_LENGTH
    · rcases hcur with rfl | hgood
      · simpa [packWords, hfit] using ih w hws' (Or.inr hwgood)
      · have hcne : cur ≠ [] := hgood.1.1
        have hne : cur.isEmpty = false := by simpa [List.isEmpty_iff] using hcne
        have hjoin : cur ++ ' ' :: w = cur ++ [' '] ++ w := by simp
        have hgood' : goodChunk (cur ++ ' ' :: w) := by
          constructor
          · rw [hjoin]
            exact edgeClean_append_sep cur [' '] w hgood.1 (noWs_edgeClean hw.1 hw.2)
          · left
            simpa [Nat.add_comm, Nat.add_assoc, Nat.add_left_comm] using hfit
        simpa [packWords, hfit, hne] using ih (cur ++ ' ' :: w) hws' (Or.inr hgood')
    · have ihw := ih w hws' (Or.inr hwgood)
      rcases hcur with rfl | hgood
      · simpa [packWords, hfit] using ihw
      · have hne : cur.isEmpty = false := by simpa [List.isEmpty_iff] using hgood.1.1
        refine ⟨?_, by simpa [packWords, hfit, hne] using ihw.2⟩
        intro c hc
        simp only [packWords, hfit, hne, if_false, Bool.false_eq_true] at hc
        rcases List.mem_cons.mp hc with rfl | hc'
        · exact hgood
        · exact ihw.1 c hc'

theorem packParts_good :
    ∀ (ps : List (List Char)) (cur : List Char),
      (cur = [] ∨ goodChunk cur) →
      (∀ c ∈ (packParts ps cur).1, goodChunk c) ∧
      ((packParts ps cur).2 = [] ∨ goodChunk (packParts ps cur).2) := by
  intro ps
  induction ps with
  | nil =>
    intro cur hcur
    exact ⟨by simp [packParts], hcur⟩
  | cons p ps ih =>
    intro cur hcur
    by_cases hpe : (stripList p).isEmpty
    · simpa [packParts, hpe] using ih cur hcur
    · have hpne : stripList p ≠ [] := by simpa [List.isEmpty_iff] using hpe
      have hpedge : edgeClean (stripList p) := stripList_edgeClean p hpne
      by_cases hfit : cur.length + (stripList p).length + 2 ≤ MAX_CHUNK_LENGTH
      · rcases hcur with rfl | hgood
        · have hgoodp : goodChunk (stripList p) :=
            ⟨hpedge, Or.inl (by omega)⟩
          have hfit' : (stripList p).length + 2 ≤ MAX_CHUNK_LENGTH := by simpa using hfit
          simpa [packParts, hpe, hfit'] using ih (stripList p) (Or.inr hgoodp)
        · have hcne : cur ≠ [] := hgood.1.1
          have hne : cur.isEmpty = false := by simpa [List.isEmpty_iff] using hcne
          have hjoin : cur ++ ',' :: ' ' :: stripList p = cur ++ [',', ' '] ++ stripList p := by
            simp
          have hgood' : goodChunk (cur ++ ',' :: ' ' :: stripList p) := by
            constructor
            · rw [hjoin]
              exact edgeClean_append_sep cur [',', ' '] (stripList p) hgood.1 hpedge
            · left
              have : (cur ++ ',' :: ' ' :: stripList p).length
                  = cur.length + (stripList p).length + 2 := by
                simp [Nat.add_comm, Nat.add_assoc, Nat.add_left_comm]
              omega
          simpa [packParts, hpe, hfit, hne] using
            ih (cur ++ ',' :: ' ' :: stripList p) (Or.inr hgood')
      · by_cases hlong : MAX_CHUNK_LENGTH < (stripList p).length
        · have hwordsOk : ∀ w ∈ wordsOf (stripList p), w ≠ [] ∧ noWsChunk w := by
            intro w hw
            exact tokensAux_mem_good isWsM (stripList p) [] w (by simp) hw
          have hrw := packWords_good (wordsOf (stripList p)) [] hwordsOk (Or.inl rfl)
          have hrp := ih (packWords (wordsOf (stripList p)) []).2 hrw.2
          refine ⟨?_, ?_⟩
          · intro c hc
            simp only [packParts, hpe, hfit, hlong, if_false, if_true, Bool.false_eq_true,
              List.mem_append] at hc
            rcases hc with (hc | hc) | hc
            · rcases hcur with rfl | hgood
              · simp at hc
              · have hne : cur.isEmpty = false := by simpa [List.isEmpty_iff] using hgood.1.1
                rw [hne] at hc
                simp at hc
                subst hc
                exact hgood
            · exact hrw.1 c hc
            · exact hrp.1 c hc
          · simpa [packParts, hpe, hfit, hlong] using hrp.2
        · have hgoodp : goodChunk (stripList p) := ⟨hpedge, Or.inl (by omega)⟩
          have hrp := ih (stripList p) (Or.inr hgoodp)
          refine ⟨?_, ?_⟩
          · intro c hc
            simp only [packParts, hpe, hfit, hlong, if_false, if_true, Bool.false_eq_true,
              List.mem_append] at hc
            rcases hc with hc | hc
            · rcases hcur with rfl | hgood
              · simp at hc
              · have hne : cur.isEmpty = false := by simpa [List.isEmpty_iff] using hgood.1.1
                rw [hne] at hc
                simp at hc
                subst hc
                exact hgood
            · exact hrp.1 c hc
          · simpa [packParts, hpe, hfit, hlong] using hrp.2

theorem smart_chunk_good (text : List Char) :
    ∀ c ∈ smart_chunk_text text, goodChunk c := by
  intro c hc
  simp only [smart_chunk_text, List.mem_flatMap] at hc
  obtain ⟨s0, _, hc⟩ := hc
  by_cases hempty : (stripList s0).isEmpty
  · simp [hempty] at hc
  · have hne : stripList s0 ≠ [] := by simpa [List.isEmpty_iff] using hempty
    by_cases hshort : (stripList s0).length ≤ MAX_CHUNK_LENGTH
    · simp only [hempty, hshort, if_true, if_false, Bool.false_eq_true, List.mem_singleton] at hc
      subst hc
      exact ⟨stripList_edgeClean s0 hne, Or.inl hshort⟩
    · have hpp := packParts_good (splitRuns isSubSep (stripList s0)) [] (Or.inl rfl)
      simp only [hempty, hshort, if_false, Bool.false_eq_true, List.mem_append] at hc
      rcases hc with hc | hc
      · exact hpp.1 c hc
      · by_cases hfin : (packParts (splitRuns isSubSep (stripList s0)) []).2.isEmpty
        · simp [hfin] at hc
        · rw [if_neg (by simpa using hfin)] at hc
          have hc' : c = (packParts (splitRuns isSubSep (stripList s0)) []).2 := by
            simpa using hc
          subst hc'
          rcases hpp.2 with h | h
          · exact absurd h (by simpa [List.isEmpty_iff] using hfin)
          · exact h

/-- C2: for every input text, every chunk produced by `smart_chunk_text`
has length at most `MAX_CHUNK_LENGTH` (80), except a chunk consisting of
a single whitespace-free word token whose own length exceeds 80. -/
theorem smart_chunk_text_length_bound (text c : List Char)
    (hc : c ∈ smart_chunk_text text) :
    c.length ≤ MAX_CHUNK_LENGTH ∨
      (MAX_CHUNK_LENGTH < c.length ∧ ∀ x ∈ c, isWsM x = false) := by
  rcases (smart_chunk_good text c hc).2 with h | h
  · exact Or.inl h
  · by_cases hlen : c.length ≤ MAX_CHUNK_LENGTH
    · exact Or.inl hlen
    · exact Or.inr ⟨Nat.lt_of_not_le hlen, h⟩

theorem smart_chunk_text_length_bound_witness :
    ['h', 'i'] ∈ smart_chunk_text ['h', 'i'] ∧
      (['h', 'i'].length ≤ MAX_CHUNK_LENGTH ∨
        (MAX_CHUNK_LENGTH < ['h', 'i'].length ∧ ∀ x ∈ ['h', 'i'], isWsM x = false)) :=
  ⟨by decide, smart_chunk_text_length_bound ['h', 'i'] ['h', 'i'] (by decide)⟩

/-- C10: for every input text, every chunk returned by `smart_chunk_text`
is a non-empty string with no leading and no trailing whitespace. -/
theorem smart_chunk_text_chunks_trimmed (text c : List Char)
    (hc : c ∈ smart_chunk_text text) :
    c ≠ [] ∧ (∀ x ∈ c.head?, isWsM x = false) ∧ (∀ x ∈ c.getLast?, isWsM x = false) :=
  (smart_chunk_good text c hc).1

theorem smart_chunk_text_chunks_trimmed_witness :
    ['o', 'k'] ∈ smart_chunk_text [' ', 'o', 'k', '.'] ∧
      (['o', 'k'] ≠ [] ∧ (∀ x ∈ ['o', 'k'].head?, isWsM x = false) ∧
        (∀ x ∈ ['o', 'k'].getLast?, isWsM x = false)) :=
  ⟨by decide, smart_chunk_text_chunks_trimmed [' ', 'o', 'k', '.'] ['o', 'k'] (by decide)⟩

/-! ### Word-sequence preservation (C3) and non-emptiness (C6) -/

/-- A character the chunker treats as a boundary: whitespace, a sentence
terminator (`.!?`, removed by the sentence split) or a sub-part
separator (`,;`, removed by the sub-part split and partially reinserted
as `", "`). -/
def isAtomSep (c : Char) : Bool := isWsM c || isSentSep c || isSubSep c

/-- The maximal separator-free word tokens of `s`: the words of the text
with the sentence/sub-part separator punctuation treated as additional
word boundaries.  The chunker moves only these separators around, so this
token sequence is its order-preservation invariant. -/
def atomTokens (s : List Char) : List (List Char) := tokens isAtomSep s

/-- Joining a list of chunks with single spaces (`" ".join`). -/
def joinWithSpaces : List (List Char) → List Char
  | [] => []
  | [c] => c
  | c :: rest => c ++ ' ' :: joinWithSpaces rest

theorem isWsM_atom {c : Char} (h : isWsM c = true) : isAtomSep c = true := by
  simp [isAtomSep, h]

theorem isSentSep_atom {c : Char} (h : isSentSep c = true) : isAtomSep c = true := by
  simp [isAtomSep, h]

theorem isSubSep_atom {c : Char} (h : isSubSep c = true) : isAtomSep c = true := by
  simp [isAtomSep, h]

theorem atomTokens_space_append (a b : List Char) :
    atomTokens (a ++ ' ' :: b) = atomTokens a ++ atomTokens b := by
  simpa [atomTokens, tokens] using
    tokensAux_append_sep isAtomSep (by decide : isAtomSep ' ' = true) a b []

theorem atomTokens_comma_space_append (a b : List Char) :
    atomTokens (a ++ ',' :: ' ' :: b) = atomTokens a ++ atomTokens b := by
  have h1 := tokensAux_append_sep isAtomSep (by decide : isAtomSep ',' = true) a (' ' :: b) []
  have h2 : tokens isAtomSep (' ' :: b) = tokens isAtomSep b :=
    tokens_cons_sep isAtomSep (by decide) b
  simpa [atomTokens, tokens, h2] using h1

theorem packWords_atoms :
    ∀ (words : List (List Char)) (cur : List Char),
      (∀ w ∈ words, w ≠ [] ∧ ∀ c ∈ w, isAtomSep c = false) →
      (packWords words cur).1.flatMap atomTokens ++ atomTokens (packWords words cur).2
        = atomTokens cur ++ words := by
  intro words
  induction words with
  | nil =>
    intro cur _
    simp [packWords]
  | cons w ws ih =>
    intro cur hws
    have hw := hws w (List.mem_cons_self w ws)
    have hws' : ∀ v ∈ ws, v ≠ [] ∧ ∀ c ∈ v, isAtomSep c = false :=
      fun v hv => hws v (List.mem_cons_of_mem w hv)
    have hwtok : atomTokens w = [w] := tokens_no_sep isAtomSep w hw.2 hw.1
    by_cases hfit : cur.length + w.length + 1 ≤ MAX_CHUNK_LENGTH
    · by_cases hce : cur.isEmpty
      · have hc : cur = [] := by simpa [List.isEmpty_iff] using hce
        subst hc
        rw [show packWords (w :: ws) [] = packWords ws w from by simp [packWords, hfit]]
        rw [ih w hws', hwtok]
        simp [atomTokens, tokens, tokensAux]
      · have hstep : packWords (w :: ws) cur = packWords ws (cur ++ ' ' :: w) := by
          simp [packWords, hfit, hce]
        rw [hstep, ih (cur ++ ' ' :: w) hws', atomTokens_space_append, hwtok]
        simp
    · have ihw := ih w hws'
      by_cases hce : cur.isEmpty
      · have hc : cur = [] := by simpa [List.isEmpty_iff] using hce
        subst hc
        have hstep : packWords (w :: ws) [] = packWords ws w := by
          simp [packWords, hfit]
        rw [hstep, ihw, hwtok]
        simp [atomTokens, tokens, tokensAux]
      · have hstep : packWords (w :: ws) cur
            = ((cur :: (packWords ws w).1), (packWords ws w).2) := by
          simp [packWords, hfit, hce]
        rw [hstep]
        simp only [List.flatMap_cons]
        rw [List.append_assoc, ihw, hwtok]
        simp

theorem atomTokens_stripList (s : List Char) : atomTokens (stripList s) = atomTokens s :=
  tokens_stripList (fun _ h => isWsM_atom h) s

theorem packParts_atoms :
    ∀ (ps : List (List Char)) (cur : List Char),
      (∀ p ∈ ps, ∀ c ∈ p, isSentSep c = false ∧ isSubSep c = false) →
      (packParts ps cur).1.flatMap atomTokens ++ atomTokens (packParts ps cur).2
        = atomTokens cur ++ ps.flatMap atomTokens := by
  intro ps
  induction ps with
  | nil =>
    intro cur _
    simp [packParts]
  | cons p ps ih =>
    intro cur hps
    have hp := hps p (List.mem_cons_self p ps)
    have hps' : ∀ v ∈ ps, ∀ c ∈ v, isSentSep c = false ∧ isSubSep c = false :=
      fun v hv => hps v (List.mem_cons_of_mem p hv)
    have hpt : atomTokens (stripList p) = atomTokens p := atomTokens_stripList p
    have hpsep : ∀ c ∈ stripList p, isSentSep c = false ∧ isSubSep c = false :=
      fun c hc => hp c (stripList_subset hc)
    by_cases hpe : (stripList p).isEmpty
    · have hnil : stripList p = [] := by simpa [List.isEmpty_iff] using hpe
      have hpnil : atomTokens p = [] := by rw [← hpt, hnil]; rfl
      rw [show packParts (p :: ps) cur = packParts ps cur from by simp [packParts, hpe]]
      rw [ih cur hps']
      simp [hpnil]
    · by_cases hfit : cur.length + (stripList p).length + 2 ≤ MAX_CHUNK_LENGTH
      · by_cases hce : cur.isEmpty
        · have hc : cur = [] := by simpa [List.isEmpty_iff] using hce
          subst hc
          have hfit' : (stripList p).length + 2 ≤ MAX_CHUNK_LENGTH := by simpa using hfit
          rw [show packParts (p :: ps) [] = packParts ps (stripList p) from by
            simp [packParts, hpe, hfit']]
          rw [ih (stripList p) hps', hpt]
          simp [atomTokens, tokens, tokensAux]
        · rw [show packParts (p :: ps) cur
              = packParts ps (cur ++ ',' :: ' ' :: stripList p) from by
            simp [packParts, hpe, hfit, hce]]
          rw [ih (cur ++ ',' :: ' ' :: stripList p) hps',
            atomTokens_comma_space_append, hpt]
          simp
      · by_cases hlong : MAX_CHUNK_LENGTH < (stripList p).length
        · have hwordsOk : ∀ w ∈ wordsOf (stripList p),
              w ≠ [] ∧ ∀ c ∈ w, isAtomSep c = false := by
            intro w hw
            have h1 := tokensAux_mem_good isWsM (stripList p) [] w (by simp) hw
            refine ⟨h1.1, ?_⟩
            intro c hc
            have hcmem : c ∈ stripList p :=
              tokensAux_mem_subset isWsM (stripList p) [] w (· ∈ stripList p)
                (by simp) (fun _ h => h) hw c hc
            have hsep := hpsep c hcmem
            simp [isAtomSep, h1.2 c hc, hsep.1, hsep.2]
          have hwpa := packWords_atoms (wordsOf (stripList p)) [] hwordsOk
          have hwords_eq : wordsOf (stripList p) = atomTokens (stripList p) := by
            apply tokensAux_congr
            intro c hc
            have := hpsep c hc
            simp [isAtomSep, this.1, this.2]
          have hkey : (packWords (wordsOf (stripList p)) []).1.flatMap atomTokens
              ++ (atomTokens (packWords (wordsOf (stripList p)) []).2
                  ++ ps.flatMap atomTokens)
              = atomTokens p ++ ps.flatMap atomTokens := by
            rw [← List.append_assoc, hwpa, hwords_eq, hpt]
            simp [atomTokens, tokens, tokensAux]
          rw [show packParts (p :: ps) cur
              = ((if cur.isEmpty then ([] : List (List Char)) else [cur])
                  ++ (packWords (wordsOf (stripList p)) []).1
                  ++ (packParts ps (packWords (wordsOf (stripList p)) []).2).1,
                 (packParts ps (packWords (wordsOf (stripList p)) []).2).2) from by
            simp [packParts, hpe, hfit, hlong]]
          simp only [List.flatMap_append, List.append_assoc]
          rw [ih (packWords (wordsOf (stripList p)) []).2 hps', hkey]
          by_cases hce : cur.isEmpty
          · have hc : cur = [] := by simpa [List.isEmpty_iff] using hce
            subst hc
            simp [atomTokens, tokens, tokensAux]
          · simp [hce]
        · rw [show packParts (p :: ps) cur
              = ((if cur.isEmpty then ([] : List (List Char)) else [cur])
                  ++ (packParts ps (stripList p)).1,
                 (packParts ps (stripList p)).2) from by
            simp [packParts, hpe, hfit, hlong]]
          simp only [List.flatMap_append, List.append_assoc]
          rw [ih (stripList p) hps', hpt]
          by_cases hce : cur.isEmpty
          · have hc : cur = [] := by simpa [List.isEmpty_iff] using hce
            subst hc
            simp [atomTokens, tokens, tokensAux]
          · simp [hce]

theorem smart_chunk_text_atoms (text : List Char) :
    (smart_chunk_text text).flatMap atomTokens = atomTokens text := by
  have hsent : ∀ s0 ∈ splitRuns isSentSep text, ∀ c ∈ s0, isSentSep c = false :=
    fun s0 hs0 => splitRunsAux_mem_no_q isSentSep text [] false s0 (by simp) hs0
  have hchunks : ∀ s0 ∈ splitRuns isSentSep text,
      ((fun s0 =>
        let s := stripList s0
        if s.isEmpty then []
        else if s.length ≤ MAX_CHUNK_LENGTH then [s]
        else
          let pr := packParts (splitRuns isSubSep s) []
          pr.1 ++ (if pr.2.isEmpty then [] else [pr.2])) s0).flatMap atomTokens
      = atomTokens s0 := by
    intro s0 hs0
    simp only
    by_cases hempty : (stripList s0).isEmpty
    · have hnil : stripList s0 = [] := by simpa [List.isEmpty_iff] using hempty
      rw [if_pos hempty, ← atomTokens_stripList s0, hnil]
      rfl
    · rw [if_neg (by simpa using hempty)]
      by_cases hshort : (stripList s0).length ≤ MAX_CHUNK_LENGTH
      · rw [if_pos hshort]
        simp [atomTokens_stripList s0]
      · rw [if_neg hshort]
        have hparts : ∀ pp ∈ splitRuns isSubSep (stripList s0),
            ∀ c ∈ pp, isSentSep c = false ∧ isSubSep c = false := by
          intro pp hpp c hc
          constructor
          · exact splitRunsAux_mem_subset isSubSep (stripList s0) [] false pp
              (fun c => isSentSep c = false) (by simp)
              (fun c' hc' => hsent s0 hs0 c' (stripList_subset hc')) hpp c hc
          · exact splitRunsAux_mem_no_q isSubSep (stripList s0) [] false pp (by simp) hpp c hc
        have hpa := packParts_atoms (splitRuns isSubSep (stripList s0)) [] hparts
        have hsub := @splitRuns_flatMap_tokens isAtomSep isSubSep
          (fun c h => isSubSep_atom h) (stripList s0)
        rw [List.flatMap_append]
        have hfin : (if (packParts (splitRuns isSubSep (stripList s0)) []).2.isEmpty
              then ([] : List (List Char))
              else [(packParts (splitRuns isSubSep (stripList s0)) []).2]).flatMap atomTokens
            = atomTokens (packParts (splitRuns isSubSep (stripList s0)) []).2 := by
          by_cases h2 : (packParts (splitRuns isSubSep (stripList s0)) []).2.isEmpty
          · have : (packParts (splitRuns isSubSep (stripList s0)) []).2 = [] := by
              simpa [List.isEmpty_iff] using h2
            simp [h2, this]
            rfl
          · simp [h2]
        rw [hfin, hpa]
        have hsub' : (splitRuns isSubSep (stripList s0)).flatMap atomTokens
            = atomTokens (stripList s0) := hsub
        rw [hsub', atomTokens_stripList s0]
        simp [atomTokens, tokens, tokensAux]
  calc (smart_chunk_text text).flatMap atomTokens
      = (splitRuns isSentSep text).flatMap (fun s0 => atomTokens s0) := by
        rw [smart_chunk_text, List.flatMap_assoc]
        exact List.flatMap_congr hchunks
    _ = atomTokens text :=
        @splitRuns_flatMap_tokens isAtomSep isSentSep (fun c h => isSentSep_atom h) text

theorem atomTokens_joinWithSpaces (l : List (List Char)) :
    atomTokens (joinWithSpaces l) = l.flatMap atomTokens := by
  induction l with
  | nil => rfl
  | cons c rest ih =>
    cases rest with
    | nil => simp [joinWithSpaces]
    | cons d ds =>
      rw [show joinWithSpaces (c :: d :: ds) = c ++ ' ' :: joinWithSpaces (d :: ds) from rfl]
      rw [atomTokens_space_append, ih]
      simp

/-- C3: joining the chunks of `smart_chunk_text` with single spaces
preserves the word sequence of the input: tokenized at whitespace and
at the separator characters the chunker removes or reinserts (`.!?,;`),
the rejoined chunk sequence yields exactly the input's token sequence,
in order.  In particular no word of the input appears out of order. -/
theorem smart_chunk_text_preserves_word_order (text : List Char) :
    atomTokens (joinWithSpaces (smart_chunk_text text)) = atomTokens text := by
  rw [atomTokens_joinWithSpaces]
  exact smart_chunk_text_atoms text

/-- C6 counterexample: the input "." is non-empty, yet `smart_chunk_text`
returns the empty sequence, so the chunker does not return a non-empty
sequence for every non-empty input. -/
theorem smart_chunk_text_nonempty_counterexample :
    smart_chunk_text ['.'] = [] ∧ ['.'] ≠ ([] : List Char) :=
  ⟨by decide, by decide⟩

/-- C6 (amended): the chunker returns the empty sequence on the empty
input, and returns a non-empty sequence for every input that contains at
least one character that is neither whitespace nor one of the separator
characters `. ! ? , ;` (inputs consisting only of whitespace and
sentence terminators, such as ".", also produce the empty sequence). -/
theorem smart_chunk_text_nonempty_amended :
    smart_chunk_text [] = [] ∧
      ∀ text : List Char, (∃ c ∈ text, isAtomSep c = false) →
        smart_chunk_text text ≠ [] := by
  refine ⟨rfl, ?_⟩
  intro text h hnil
  obtain ⟨c, hc, hcfalse⟩ := h
  have hatoms := smart_chunk_text_atoms text
  rw [hnil] at hatoms
  have hempty : atomTokens text = [] := by simpa using hatoms.symm
  have hall := (tokens_eq_nil_iff isAtomSep text).mp hempty
  rw [hall c hc] at hcfalse
  exact absurd hcfalse (by simp)

theorem smart_chunk_text_nonempty_amended_witness :
    (∃ c ∈ ['a'], isAtomSep c = false) ∧ smart_chunk_text ['a'] ≠ [] :=
  ⟨⟨'a', by decide, by decide⟩,
    smart_chunk_text_nonempty_amended.2 ['a'] ⟨'a', by decide, by decide⟩⟩

/-! ### Voice selection (C5) -/

/-- `VOICE_MAPPINGS` from `app.py`: the static language-to-voice table. -/
def VOICE_MAPPINGS : List (String × String) :=
  [("en", "en-US-JennyNeural"),
   ("ta", "ta-IN-PallaviNeural"),
   ("hi", "hi-IN-SwaraNeural"),
   ("ml", "ml-IN-SobhanaNeural"),
   ("kn", "kn-IN-SapnaNeural"),
   ("te", "te-IN-ShrutiNeural"),
   ("bn", "bn-IN-TanishaaNeural"),
   ("mr", "mr-IN-AarohiNeural"),
   ("gu", "gu-IN-DhwaniNeural"),
   ("pa", "pa-IN-SandeepNeural"),
   ("ur", "ur-IN-GulNeural"),
   ("fr", "fr-FR-DeniseNeural"),
   ("de", "de-DE-KatjaNeural"),
   ("es", "es-ES-ElviraNeural"),
   ("it", "it-IT-ElsaNeural"),
   ("ru", "ru-RU-SvetlanaNeural"),
   ("ja", "ja-JP-NanamiNeural"),
   ("ko", "ko-KR-SunHiNeural"),
   ("zh", "zh-CN-XiaoxiaoNeural"),
   ("ar", "ar-SA-ZariyahNeural"),
   ("pt", "pt-BR-FranciscaNeural"),
   ("nl", "nl-NL-ColetteNeural"),
   ("el", "el-GR-AthinaNeural"),
   ("he", "he-IL-HilaNeural"),
   ("tr", "tr-TR-EmelNeural"),
   ("pl", "pl-PL-ZofiaNeural"),
   ("th", "th-TH-PremwadeeNeural"),
   ("vi", "vi-VN-HoaiMyNeural"),
   ("sv", "sv-SE-SofieNeural"),
   ("fi", "fi-FI-NooraNeural"),
   ("cs", "cs-CZ-VlastaNeural"),
   ("hu", "hu-HU-NoemiNeural")]

/-- `TAMIL_RANGE = range(0x0B80, 0x0C00)`: code points U+0B80 to U+0BFF. -/
def inTamilRange (c : Char) : Bool :=
  0x0B80 ≤ c.toNat && c.toNat < 0x0C00

/-- `detect_tamil_content` (lines 169-171 of `app.py`). -/
def detect_tamil_content (text : List Char) : Bool :=
  text.any inTamilRange

/-- `get_voice_for_text` (lines 174-188 of `app.py`).  `language` and
`voice` are optional JSON fields; Python's `if voice:` treats both
`None` and the empty string as absent, modelled here by the match on
`Option` plus the emptiness test. -/
def get_voice_for_text (text : List Char) (language : Option String)
    (voice : Option String) : String :=
  let auto :=
    if detect_tamil_content text then (VOICE_MAPPINGS.lookup "ta").getD ""
    else
      let lang_code := match language with
        | some l => if l.isEmpty then "en" else l.toLower
        | none => "en"
      (VOICE_MAPPINGS.lookup lang_code).getD ((VOICE_MAPPINGS.lookup "en").getD "")
  match voice with
  | some v => if v.isEmpty then auto else v
  | none => auto

/-- C5: the three-level voice-selection contract.  (1) A supplied
(non-empty) explicit voice is returned unchanged.  (2) Otherwise, if the
text contains any code point in the Tamil block U+0B80-U+0BFF, the Tamil
default voice is returned regardless of the declared language.
(3) Otherwise the language is looked up case-insensitively in the static
table, falling back to the English default voice when the language is
absent from the table or unspecified. -/
theorem get_voice_for_text_contract (text : List Char) (language voice : Option String) :
    (∀ v, voice = some v → ¬ v.isEmpty → get_voice_for_text text language voice = v) ∧
    ((voice = none ∨ voice = some "") →
      (∃ c ∈ text, 0x0B80 ≤ c.toNat ∧ c.toNat ≤ 0x0BFF) →
      get_voice_for_text text language voice = "ta-IN-PallaviNeural") ∧
    ((voice = none ∨ voice = some "") →
      (¬ ∃ c ∈ text, 0x0B80 ≤ c.toNat ∧ c.toNat ≤ 0x0BFF) →
      (∀ l, language = some l → ¬ l.isEmpty →
        get_voice_for_text text language voice
          = (VOICE_MAPPINGS.lookup l.toLower).getD "en-US-JennyNeural") ∧
      ((language = none ∨ language = some "") →
        get_voice_for_text text language voice = "en-US-JennyNeural")) := by
  have htamil : detect_tamil_content text = true
      ↔ ∃ c ∈ text, 0x0B80 ≤ c.toNat ∧ c.toNat ≤ 0x0BFF := by
    simp only [detect_tamil_content, List.any_eq_true, inTamilRange, Bool.and_eq_true,
      decide_eq_true_eq]
    constructor
    · rintro ⟨c, hc, h1, h2⟩
      exact ⟨c, hc, h1, by omega⟩
    · rintro ⟨c, hc, h1, h2⟩
      exact ⟨c, hc, h1, by omega⟩
  refine ⟨?_, ?_, ?_⟩
  · rintro v rfl hv
    simp [get_voice_for_text, hv]
  · intro hvoice htam
    have hdet : detect_tamil_content text = true := htamil.mpr htam
    rcases hvoice with rfl | rfl
    · simp [get_voice_for_text, hdet]
      rfl
    · simp [get_voice_for_text, hdet]
      rfl
  · intro hvoice htam
    have hdet : detect_tamil_content text = false := by
      by_cases h : detect_tamil_content text = true
      · exact absurd (htamil.mp h) htam
      · simpa using h
    constructor
    · rintro l rfl hl
      have hle : l.isEmpty = false := by simpa using hl
      rcases hvoice with rfl | rfl
      · simp [get_voice_for_text, hdet, hle]
        rfl
      · simp [get_voice_for_text, hdet, hle]
        rfl
    · intro hlang
      rcases hvoice with rfl | rfl <;> rcases hlang with rfl | rfl
      · simp [get_voice_for_text, hdet]
        rfl
      · simp [get_voice_for_text, hdet]
        rfl
      · simp [get_voice_for_text, hdet]
        rfl
      · simp [get_voice_for_text, hdet]
        rfl

theorem get_voice_for_text_contract_witness :
    (∃ c ∈ ['அ'], 0x0B80 ≤ c.toNat ∧ c.toNat ≤ 0x0BFF) ∧
      get_voice_for_text ['அ'] (some "fr") none = "ta-IN-PallaviNeural" :=
  ⟨⟨'அ', by decide, by decide⟩,
    (get_voice_for_text_contract ['அ'] (some "fr") none).2.1 (Or.inl rfl)
      ⟨'அ', by decide, by decide⟩⟩

/-! ### Synthesis scheduler (C1) -/

/-- `MAX_CONCURRENT_TTS = 15` from the configuration block. -/
def MAX_CONCURRENT_TTS : Nat := 15

/-- Model of the fan-out/fan-in of `generate_all_chunks` (lines 207-218
of `app.py`).  `asyncio.gather` allocates one result slot per task, each
task writes its own slot when it completes, and the slot array is
returned in task order.  Completion order is modelled by an explicit
list of task indices `order`; each completion stores the synthesis
result for its own chunk into its own slot. -/
def runCompletions (f : Nat → β) (order : List Nat) (slots : List (Option β)) :
    List (Option β) :=
  order.foldl (fun sl i => sl.set i (some (f i))) slots

/-- Model of `generate_all_chunks(chunks, voice)`: concurrently
synthesize every chunk with the same voice, collecting results by chunk
index under the completion order `order` (a permutation of the task
indices).  `synth` is the per-chunk synthesis call (the
`edge_tts.Communicate(...).stream()` accumulation of
`generate_audio_chunk`), taking the chunk text and the voice. -/
def generate_all_chunks (synth : List Char → String → β) (chunks : List (List Char))
    (voice : String) (order : List Nat) : List (Option β) :=
  runCompletions (fun i => synth (chunks.getD i []) voice) order
    (List.replicate chunks.length none)

theorem runCompletions_length (f : Nat → β) :
    ∀ (order : List Nat) (slots : List (Option β)),
      (runCompletions f order slots).length = slots.length := by
  intro order
  induction order with
  | nil => intro slots; rfl
  | cons j rest ih =>
    intro slots
    simp only [runCompletions, List.foldl_cons] at *
    rw [ih (slots.set j (some (f j)))]
    simp

theorem runCompletions_getElem? (f : Nat → β) :
    ∀ (order : List Nat) (slots : List (Option β)) (i : Nat),
      (runCompletions f order slots)[i]?
        = if i ∈ order ∧ i < slots.length then some (some (f i)) else slots[i]? := by
  intro order
  induction order with
  | nil =>
    intro slots i
    simp [runCompletions]
  | cons j rest ih =>
    intro slots i
    have hstep : runCompletions f (j :: rest) slots
        = runCompletions f rest (slots.set j (some (f j))) := rfl
    rw [hstep, ih (slots.set j (some (f j))) i]
    by_cases hmem : i ∈ rest
    · by_cases hlen : i < slots.length
      · simp [hmem, hlen, List.mem_cons]
      · simp only [List.length_set, hlen, and_false, if_false]
        rw [List.getElem?_set]
        by_cases hji : j = i
        · subst hji
          rw [if_pos rfl, if_neg hlen, List.getElem?_eq_none (by omega)]
        · rw [if_neg hji]
    · simp only [List.length_set, hmem, false_and, if_false]
      by_cases hji : j = i
      · subst hji
        rw [List.getElem?_set, if_pos rfl]
        by_cases hlen : j < slots.length
        · simp [hlen, List.mem_cons]
        · rw [if_neg hlen, List.getElem?_eq_none (by omega)]
          simp [hlen, List.mem_cons, hmem]
      · rw [List.getElem?_set_ne hji]
        have hij : ¬ i ∈ j :: rest := by
          simp only [List.mem_cons]
          rintro (rfl | hc)
          · exact hji rfl
          · exact hmem hc
        simp [hij]

/-- C1: for every chunk list, voice and completion order (any permutation
of the task indices), the sequence returned by the synthesis scheduler
has exactly the length of the chunk list, and the i-th result slot holds
the audio synthesized for the i-th chunk — independent of the completion
order. -/
theorem generate_all_chunks_ordered (synth : List Char → String → β)
    (chunks : List (List Char)) (voice : String) (order : List Nat)
    (hperm : order.Perm (List.range chunks.length)) :
    (generate_all_chunks synth chunks voice order).length = chunks.length ∧
    ∀ i, i < chunks.length →
      (generate_all_chunks synth chunks voice order).getD i none
        = some (synth (chunks.getD i []) voice) := by
  constructor
  · simpa [generate_all_chunks] using
      runCompletions_length (fun i => synth (chunks.getD i []) voice) order
        (List.replicate chunks.length none)
  · intro i hi
    have hmem : i ∈ order := by
      rw [hperm.mem_iff]
      simpa using hi
    have hget := runCompletions_getElem? (fun i => synth (chunks.getD i []) voice) order
      (List.replicate chunks.length none) i
    rw [List.getD_eq_getElem?_getD]
    unfold generate_all_chunks
    rw [hget]
    simp [hmem, hi]

theorem generate_all_chunks_ordered_witness :
    ([2, 0, 1].Perm (List.range [['a'], ['b', 'b'], ['c']].length)) ∧
      (generate_all_chunks (fun c _ => c.length) [['a'], ['b', 'b'], ['c']] "v"
          [2, 0, 1]).length = 3 ∧
      (generate_all_chunks (fun c _ => c.length) [['a'], ['b', 'b'], ['c']] "v"
          [2, 0, 1]).getD 1 none = some 2 := by
  have h := generate_all_chunks_ordered (fun (c : List Char) (_ : String) => c.length)
    [['a'], ['b', 'b'], ['c']] "v" [2, 0, 1] (by decide)
  exact ⟨by decide, h.1, h.2 1 (by decide)⟩

/-! ### Audio assembly (C9) -/

/-- The 200 ms inter-segment pause of `combine_audio_segments`
(`AudioSegment.silent(duration=200)`). -/
def pauseDurationMs : Nat := 200

/-- Duration (in milliseconds) of the concatenated track built by the
assembly loop of `combine_audio_segments` (lines 260-267 of `app.py`),
before dynamic-range compression and export.  `segs` holds the durations
of the post-processed segments; the loop appends each segment and, for
every index `i < len(segments) - 1`, a 200 ms pause.  Pydub
concatenation adds durations, so the loop is mirrored on durations,
carrying the total count `n` and the current index `i`. -/
def combineLoopDuration (n : Nat) : Nat → List Nat → Nat
  | _, [] => 0
  | i, d :: rest =>
    d + (if i < n - 1 then pauseDurationMs else 0) + combineLoopDuration n (i + 1) rest

/-- Duration of `combined` in `combine_audio_segments` just before
`compress_dynamic_range` is applied. -/
def combine_audio_segments_duration (segs : List Nat) : Nat :=
  combineLoopDuration segs.length 0 segs

theorem combineLoopDuration_eq :
    ∀ (rest : List Nat) (n i : Nat), i + rest.length = n →
      combineLoopDuration n i rest
        = rest.sum + (rest.length - 1) * pauseDurationMs := by
  intro rest
  induction rest with
  | nil => intro n i _; simp [combineLoopDuration]
  | cons d rest ih =>
    intro n i hn
    simp only [combineLoopDuration]
    cases rest with
    | nil =>
      have : ¬ i < n - 1 := by
        simp at hn
        omega
      simp [this, combineLoopDuration]
    | cons e rest' =>
      have hlt : i < n - 1 := by
        simp at hn
        omega
      rw [ih n (i + 1) (by simp at hn ⊢; omega)]
      simp only [hlt, if_pos, List.sum_cons, List.length_cons]
      have h1 : (e :: rest').length ≥ 1 := by simp
      simp [pauseDurationMs]
      omega

/-- C9: for every sequence of N post-processed segments (N ≥ 1), the
assembler inserts exactly one 200 ms pause between consecutive segments
and none after the last, so the duration of the concatenated track
before compression/export equals the sum of the segment durations plus
(N - 1) * 200 ms. -/
theorem combine_audio_segments_duration_eq (segs : List Nat) (h : segs ≠ []) :
    combine_audio_segments_duration segs
      = segs.sum + (segs.length - 1) * pauseDurationMs :=
  combineLoopDuration_eq segs segs.length 0 (by simp)

theorem combine_audio_segments_duration_eq_witness :
    ([1500, 900, 2200] : List Nat) ≠ [] ∧
      combine_audio_segments_duration [1500, 900, 2200]
        = [1500, 900, 2200].sum + ([1500, 900, 2200].length - 1) * pauseDurationMs :=
  ⟨by decide, combine_audio_segments_duration_eq [1500, 900, 2200] (by decide)⟩

/-! ### Text normalization (C4): the `clean_text` pipeline -/

/-- The character class repeated under `+` in `URL_PATTERN`
(`[a-zA-Z]|[0-9]|[$-_@.&+]|[!*\\(\\),]|%XX`): `$-_` is the byte range
U+0024 to U+005F, which already contains `@ . & + * \ ( ) , %` and the
hex digits, so the percent-escape alternative adds nothing beyond the
union of the single-character classes. -/
def urlChar (c : Char) : Bool :=
  c.isAlpha || c.isDigit || ('$' ≤ c && c ≤ '_') ||
    c = '@' || c = '.' || c = '&' || c = '+' ||
    c = '!' || c = '*' || c = '\\' || c = '(' || c = ')' || c = ','

/-- Match of `URL_PATTERN` anchored at the start of `s`: the literal
prefix `https://` or `http://` (the greedy `[s]?`) followed by at least
one `urlChar`; returns the remainder after the maximal match. -/
def urlSuffix (s : List Char) : Option (List Char) :=
  if s.take 8 = ['h', 't', 't', 'p', 's', ':', '/', '/'] then urlBody (s.drop 8)
  else if s.take 7 = ['h', 't', 't', 'p', ':', '/', '/'] then urlBody (s.drop 7)
  else none
where
  urlBody : List Char → Option (List Char)
    | [] => none
    | c :: cs => if urlChar c then some (cs.dropWhile urlChar) else none

/-- `URL_PATTERN.sub('', text)`: left-to-right scan removing every
non-overlapping match.  Fuelled by the input length (every step consumes
at least one character). -/
def removeURLsF : Nat → List Char → List Char
  | 0, s => s
  | _ + 1, [] => []
  | fuel + 1, c :: cs =>
    match urlSuffix (c :: cs) with
    | some r => removeURLsF fuel r
    | none => c :: removeURLsF fuel cs

def removeURLs (s : List Char) : List Char := removeURLsF s.length s

/-- Match of `TAG_PATTERN = re.compile(r'<[^>]+>')` anchored at the
start of `s`: a `<`, at least one non-`>` character, then the first `>`
(the greedy `[^>]+` cannot cross a `>`).  Returns the remainder. -/
def tagSuffix : List Char → Option (List Char)
  | [] => none
  | c :: rest =>
    if c = '<' then
      if (rest.takeWhile (fun x => x ≠ '>')).isEmpty then none
      else
        match rest.dropWhile (fun x => x ≠ '>') with
        | [] => none
        | _ :: r => some r
    else none

/-- `TAG_PATTERN.sub('', text)`. -/
def removeTagsF : Nat → List Char → List Char
  | 0, s => s
  | _ + 1, [] => []
  | fuel + 1, c :: cs =>
    match tagSuffix (c :: cs) with
    | some r => removeTagsF fuel r
    | none => c :: removeTagsF fuel cs

def removeTags (s : List Char) : List Char := removeTagsF s.length s

/-- Named character references recognized by the `html.unescape` model:
a representative finite sub-table of the HTML5 entity table. -/
def namedEntities : List (List Char × Char) :=
  [(['a', 'm', 'p'], '&'),
   (['l', 't'], '<'),
   (['g', 't'], '>'),
   (['q', 'u', 'o', 't'], '"'),
   (['a', 'p', 'o', 's'], '\''),
   (['n', 'b', 's', 'p'], ' ')]

/-- Value of a decimal digit string (for `&#NNN;` references). -/
def decValue (ds : List Char) : Option Nat :=
  if ds.isEmpty then none
  else if ds.all Char.isDigit then
    some (ds.foldl (fun n c => n * 10 + (c.toNat - 48)) 0)
  else none

/-- The character denoted by an entity name (without `&` and `;`):
either a numeric reference `#NNN` or a named reference. -/
def entityValue (name : List Char) : Option Char :=
  match name with
  | '#' :: ds =>
    match decValue ds with
    | some n =>
      if n < 0xD800 || (0xE000 ≤ n && n < 0x110000) then some (Char.ofNat n) else none
    | none => none
  | _ => List.lookup name namedEntities

/-- Entity reference anchored after a `&`: the name runs to the next
`;`, which is consumed. -/
def entityMatch (s : List Char) : Option (Char × List Char) :=
  match s.dropWhile (fun c => c ≠ ';') with
  | [] => none
  | _ :: rest =>
    match entityValue (s.takeWhile (fun c => c ≠ ';')) with
    | some ch => some (ch, rest)
    | none => none

/-- Model of `html.unescape(text)`, restricted to semicolon-terminated
named references from the finite sub-table and decimal numeric
references; an `&` that does not begin a recognized reference is kept
verbatim, as in the library. -/
def unescapeF : Nat → List Char → List Char
  | 0, s => s
  | _ + 1, [] => []
  | fuel + 1, c :: cs =>
    if c = '&' then
      match entityMatch cs with
      | some (ch, rest) => ch :: unescapeF fuel rest
      | none => '&' :: unescapeF fuel cs
    else c :: unescapeF fuel cs

def unescape (s : List Char) : List Char := unescapeF s.length s

/-- The character class of `BRACKET_PATTERN = re.compile(r'[\[\]{}()]')`. -/
def isBracket (c : Char) : Bool :=
  c = '[' || c = ']' || c = '{' || c = '}' || c = '(' || c = ')'

/-- `BRACKET_PATTERN.sub('', text)`: brackets removed, contents kept. -/
def removeBrackets (s : List Char) : List Char := s.filter (fun c => !(isBracket c))

/-- Per-character compatibility decompositions for the model of
`unicodedata.normalize('NFKD', text)`: a representative finite sub-table
of the Unicode decomposition mapping (fully decomposed, as in the UCD).
Characters outside the table decompose to themselves. -/
def decompTable : List (Char × List Char) :=
  [('é', ['e', '́']),
   ('ﬁ', ['f', 'i']),
   ('²', ['2']),
   (' ', [' '])]

def nfkdChar (c : Char) : List Char := (List.lookup c decompTable).getD [c]

/-- Model of `unicodedata.normalize('NFKD', text)` as the per-character
decomposition map; canonical reordering of combining marks is not
modelled (no decomposition in the table produces two marks with
conflicting combining classes). -/
def nfkd (s : List Char) : List Char := s.flatMap nfkdChar

/-- Model of the regex class `\w` (word characters) in
`SPECIAL_CHAR_PATTERN`, restricted to the ASCII alphanumerics plus
underscore; non-ASCII word characters outside the whitelisted Tamil
block are not modelled. -/
def isWordCharM (c : Char) : Bool := c.isAlphanum || c = '_'

/-- The whitelisted script range `஀-௿` of
`SPECIAL_CHAR_PATTERN`. -/
def isTamilChar (c : Char) : Bool := 0x0B80 ≤ c.toNat && c.toNat ≤ 0x0BFF

/-- The punctuation whitelist of `SPECIAL_CHAR_PATTERN`
(`.,!?;:-'"` plus the two Devanagari danda sentence terminators). -/
def isPunctKeep (c : Char) : Bool :=
  c = '.' || c = ',' || c = '!' || c = '?' || c = ';' || c = ':' ||
    c = '-' || c = '\'' || c = '"' || c = '।' || c = '॥'

/-- A character kept by `SPECIAL_CHAR_PATTERN.sub('', text)` (the
complement of the negated class `[^\w\s஀-௿.,!?;:\-'"।॥]`). -/
def allowedChar (c : Char) : Bool :=
  isWordCharM c || isWsM c || isTamilChar c || isPunctKeep c

def removeSpecial (s : List Char) : List Char := s.filter allowedChar

/-- `WHITESPACE_PATTERN.sub(' ', text)`: every maximal run of whitespace
is replaced by a single space.  `inRun` records that the current run's
replacement space was already emitted. -/
def collapseWsAux : List Char → Bool → List Char
  | [], _ => []
  | c :: cs, inRun =>
    if isWsM c then
      if inRun then collapseWsAux cs true
      else ' ' :: collapseWsAux cs true
    else c :: collapseWsAux cs false

def collapseWs (s : List Char) : List Char := collapseWsAux s false

/-- `clean_text` (lines 84-111 of `app.py`): remove URLs, remove HTML
tags, unescape entities, remove brackets, NFKD-normalize, remove
disallowed characters, collapse whitespace, strip. -/
def clean_text (s : List Char) : List Char :=
  stripList (collapseWs (removeSpecial (nfkd (removeBrackets (unescape (removeTags (removeURLs s)))))))

/-! ### Request handler (C7, C8) -/

/-- Model of the fail-fast fan-in
`loop.run_until_complete(generate_all_chunks(...))`: `asyncio.gather`
raises the exception of any failed task and discards the other results;
otherwise it returns all chunk results in task order.  Each per-chunk
synthesis call either produces audio bytes or raises (`Except.error`). -/
def gatherE (synth : List Char → Except String (List Nat)) :
    List (List Char) → Except String (List (List Nat))
  | [] => .ok []
  | c :: cs =>
    match synth c with
    | .error e => .error e
    | .ok b =>
      match gatherE synth cs with
      | .error e => .error e
      | .ok bs => .ok (b :: bs)

/-- A parsed JSON request body for `/generate-tts`; the `text` field may
be missing, `language` and `voice` are optional. -/
structure TtsRequest where
  text? : Option (List Char)
  language : Option String
  voice : Option String

/-- The handler's response: a sent file, or a structured error object
with an HTTP status code. -/
inductive TtsResponse
  | file (path : List Char)
  | error (status : Nat) (msg : String)
deriving DecidableEq

/-- Observable outcome of one request: the response, the artifact files
created on disk, and the chunks submitted to the synthesis backend. -/
structure TtsOutcome where
  resp : TtsResponse
  filesCreated : List (List Char)
  synthCalls : List (List Char)

/-- Model of the `generate_tts` handler (lines 362-429 of `app.py`).
`synth` models the external synthesis call for one chunk (the selected
voice is fixed per request), `outName` the generated unique file name
used by `combine_audio_segments`, and `data` is `none` when the body is
not a JSON object or lacks usable JSON.  Validation failures return 400
before any pipeline work; the surrounding `try/except` turns a
synthesis failure into a 500 error, in which case
`combine_audio_segments` is never reached and no artifact file is
created. -/
def generate_tts (synth : List Char → Except String (List Nat))
    (outName : List Char) (data : Option TtsRequest) : TtsOutcome :=
  match data with
  | none => ⟨.error 400 "Missing required field: text", [], []⟩
  | some d =>
    match d.text? with
    | none => ⟨.error 400 "Missing required field: text", [], []⟩
    | some rawText =>
      let text := stripList rawText
      if text.isEmpty then ⟨.error 400 "Text cannot be empty", [], []⟩
      else
        let cleaned := clean_text text
        let chunks := smart_chunk_text cleaned
        match gatherE synth chunks with
        | .error e => ⟨.error 500 ("Audio generation failed: " ++ e), [], chunks⟩
        | .ok _ =>
          let path := ("audio_output/".toList) ++ outName
          ⟨.file path, [path], chunks⟩

theorem gatherE_error_of_mem (synth : List Char → Except String (List Nat)) :
    ∀ (chunks : List (List Char)) (c : List Char) (e : String),
      c ∈ chunks → synth c = .error e → ∃ e', gatherE synth chunks = .error e' := by
  intro chunks
  induction chunks with
  | nil => intro c e hc _; simp at hc
  | cons d ds ih =>
    intro c e hc herr
    rcases List.mem_cons.mp hc with rfl | hc'
    · exact ⟨e, by simp [gatherE, herr]⟩
    · match hd : synth d with
      | .error e'' => exact ⟨e'', by simp [gatherE, hd]⟩
      | .ok b =>
        obtain ⟨e', he'⟩ := ih c e hc' herr
        exact ⟨e', by simp [gatherE, hd, he']⟩

/-- C7: if the synthesis of any single chunk of a validated request
fails, the whole request fails: the handler returns a structured
500-status error, creates no artifact file, and returns no partial audio
as success. -/
theorem generate_tts_failfast (synth : List Char → Except String (List Nat))
    (outName rawText : List Char) (language voice : Option String)
    (hne : ¬ (stripList rawText).isEmpty)
    (hfail : ∃ c ∈ smart_chunk_text (clean_text (stripList rawText)),
      ∃ e, synth c = .error e) :
    (∃ m, (generate_tts synth outName (some ⟨some rawText, language, voice⟩)).resp
        = .error 500 m) ∧
    (generate_tts synth outName (some ⟨some rawText, language, voice⟩)).filesCreated = [] := by
  obtain ⟨c, hc, e, he⟩ := hfail
  obtain ⟨e', he'⟩ := gatherE_error_of_mem synth
    (smart_chunk_text (clean_text (stripList rawText))) c e hc he
  constructor
  · exact ⟨"Audio generation failed: " ++ e', by simp [generate_tts, hne, he']⟩
  · simp [generate_tts, hne, he']

theorem generate_tts_failfast_witness :
    (¬ (stripList "Hello there".toList).isEmpty) ∧
    (∃ c ∈ smart_chunk_text (clean_text (stripList "Hello there".toList)),
      ∃ e, (fun (_ : List Char) => (Except.error "boom" : Except String (List Nat))) c
        = .error e) ∧
    (∃ m, (generate_tts (fun _ => .error "boom") ['f'] (some ⟨some "Hello there".toList,
        none, none⟩)).resp = .error 500 m) ∧
    (generate_tts (fun _ => .error "boom") ['f'] (some ⟨some "Hello there".toList,
        none, none⟩)).filesCreated = [] := by
  have h := generate_tts_failfast (fun _ => .error "boom") ['f'] "Hello there".toList
    none none (by decide) ⟨"Hello there".toList, by decide, "boom", rfl⟩
  exact ⟨by decide, ⟨"Hello there".toList, by decide, "boom", rfl⟩, h.1, h.2⟩

/-- C8: a request whose body lacks the `text` field (or is not JSON), or
whose `text` is empty after stripping, is rejected with a structured
400-status error before any pipeline work: no synthesis call is made and
no artifact file is created. -/
theorem generate_tts_validation (synth : List Char → Except String (List Nat))
    (outName : List Char) (data : Option TtsRequest)
    (hbad : data = none ∨ (∃ d, data = some d ∧ d.text? = none) ∨
      (∃ d rawText, data = some d ∧ d.text? = some rawText ∧
        (stripList rawText).isEmpty)) :
    (∃ m, (generate_tts synth outName data).resp = .error 400 m) ∧
    (generate_tts synth outName data).filesCreated = [] ∧
    (generate_tts synth outName data).synthCalls = [] := by
  rcases hbad with rfl | ⟨d, rfl, hd⟩ | ⟨d, rawText, rfl, hd, hempty⟩
  · exact ⟨⟨"Missing required field: text", rfl⟩, rfl, rfl⟩
  · obtain ⟨t?, lang, voi⟩ := d
    cases hd
    exact ⟨⟨"Missing required field: text", rfl⟩, rfl, rfl⟩
  · obtain ⟨t?, lang, voi⟩ := d
    cases hd
    refine ⟨⟨"Text cannot be empty", ?_⟩, ?_, ?_⟩ <;> simp [generate_tts, hempty]

theorem generate_tts_validation_witness :
    ((some ⟨some [' ', ' '], none, none⟩ : Option TtsRequest) = none ∨
      (∃ d, (some ⟨some [' ', ' '], none, none⟩ : Option TtsRequest) = some d ∧
        d.text? = none) ∨
      (∃ d rawText, (some ⟨some [' ', ' '], none, none⟩ : Option TtsRequest) = some d ∧
        d.text? = some rawText ∧ (stripList rawText).isEmpty)) ∧
    (∃ m, (generate_tts (fun _ => .ok []) ['f']
        (some ⟨some [' ', ' '], none, none⟩)).resp = .error 400 m) ∧
    (generate_tts (fun _ => .ok []) ['f']
        (some ⟨some [' ', ' '], none, none⟩)).filesCreated = [] ∧
    (generate_tts (fun _ => .ok []) ['f']
        (some ⟨some [' ', ' '], none, none⟩)).synthCalls = [] := by
  have hbad : (some ⟨some [' ', ' '], none, none⟩ : Option TtsRequest) = none ∨
      (∃ d, (some ⟨some [' ', ' '], none, none⟩ : Option TtsRequest) = some d ∧
        d.text? = none) ∨
      (∃ d rawText, (some ⟨some [' ', ' '], none, none⟩ : Option TtsRequest) = some d ∧
        d.text? = some rawText ∧ (stripList rawText).isEmpty) :=
    Or.inr (Or.inr ⟨⟨some [' ', ' '], none, none⟩, [' ', ' '], rfl, rfl, by decide⟩)
  exact ⟨hbad, generate_tts_validation (fun _ => .ok []) ['f'] _ hbad⟩

/-! ### Idempotence of `clean_text` (C4) -/

theorem urlSuffix_none_of_no_slash {s : List Char} (h : '/' ∉ s) : urlSuffix s = none := by
  unfold urlSuffix
  rw [if_neg, if_neg]
  · intro heq
    exact h (List.take_subset 7 s (by rw [heq]; decide))
  · intro heq
    exact h (List.take_subset 8 s (by rw [heq]; decide))

theorem removeURLsF_id : ∀ (fuel : Nat) (s : List Char), '/' ∉ s → removeURLsF fuel s = s := by
  intro fuel
  induction fuel with
  | zero => intro s _; rfl
  | succ n ih =>
    intro s h
    cases s with
    | nil => rfl
    | cons c cs =>
      have hnone : urlSuffix (c :: cs) = none := urlSuffix_none_of_no_slash h
      simp only [removeURLsF, hnone]
      rw [ih cs (fun hc => h (List.mem_cons_of_mem c hc))]

theorem removeURLs_id {s : List Char} (h : '/' ∉ s) : removeURLs s = s :=
  removeURLsF_id s.length s h

theorem tagSuffix_none_of_no_lt {s : List Char} (h : '<' ∉ s) : tagSuffix s = none := by
  cases s with
  | nil => rfl
  | cons c cs =>
    have : c ≠ '<' := fun hc => h (hc ▸ List.mem_cons_self c cs)
    simp [tagSuffix, this]

theorem removeTagsF_id : ∀ (fuel : Nat) (s : List Char), '<' ∉ s → removeTagsF fuel s = s := by
  intro fuel
  induction fuel with
  | zero => intro s _; rfl
  | succ n ih =>
    intro s h
    cases s with
    | nil => rfl
    | cons c cs =>
      have hnone : tagSuffix (c :: cs) = none := tagSuffix_none_of_no_lt h
      simp only [removeTagsF, hnone]
      rw [ih cs (fun hc => h (List.mem_cons_of_mem c hc))]

theorem removeTags_id {s : List Char} (h : '<' ∉ s) : removeTags s = s :=
  removeTagsF_id s.length s h

theorem unescapeF_id : ∀ (fuel : Nat) (s : List Char), '&' ∉ s → unescapeF fuel s = s := by
  intro fuel
  induction fuel with
  | zero => intro s _; rfl
  | succ n ih =>
    intro s h
    cases s with
    | nil => rfl
    | cons c cs =>
      have hc : c ≠ '&' := fun hc => h (hc ▸ List.mem_cons_self c cs)
      simp only [unescapeF, hc, if_neg, Bool.false_eq_true, if_false]
      rw [ih cs (fun hm => h (List.mem_cons_of_mem c hm))]

theorem unescape_id {s : List Char} (h : '&' ∉ s) : unescape s = s :=
  unescapeF_id s.length s h

theorem removeBrackets_id {s : List Char} (h : ∀ c ∈ s, isBracket c = false) :
    removeBrackets s = s := by
  rw [removeBrackets, List.filter_eq_self]
  intro c hc
  simp [h c hc]

theorem nfkd_id {s : List Char} (h : ∀ c ∈ s, nfkdChar c = [c]) : nfkd s = s := by
  induction s with
  | nil => rfl
  | cons c cs ih =>
    rw [nfkd, List.flatMap_cons, h c (List.mem_cons_self c cs)]
    rw [nfkd] at ih
    rw [ih (fun x hx => h x (List.mem_cons_of_mem c hx))]
    rfl

theorem removeSpecial_id {s : List Char} (h : ∀ c ∈ s, allowedChar c = true) :
    removeSpecial s = s := by
  rw [removeSpecial, List.filter_eq_self]
  exact h

theorem removeSpecial_allowed {s : List Char} : ∀ c ∈ removeSpecial s, allowedChar c = true :=
  fun _ hc => List.of_mem_filter hc

theorem collapseWsAux_mem : ∀ (s : List Char) (b : Bool) (c : Char),
    c ∈ collapseWsAux s b → c ∈ s ∨ c = ' ' := by
  intro s
  induction s with
  | nil => intro b c hc; simp [collapseWsAux] at hc
  | cons x xs ih =>
    intro b c hc
    by_cases hx : isWsM x
    · cases b with
      | true =>
        simp only [collapseWsAux, hx, if_pos rfl, if_true] at hc
        rcases ih true c hc with h | h
        · exact Or.inl (List.mem_cons_of_mem x h)
        · exact Or.inr h
      | false =>
        simp only [collapseWsAux, hx, if_pos rfl, Bool.false_eq_true, if_false] at hc
        rcases List.mem_cons.mp hc with rfl | hc'
        · exact Or.inr rfl
        · rcases ih true c hc' with h | h
          · exact Or.inl (List.mem_cons_of_mem x h)
          · exact Or.inr h
    · have hx' : isWsM x = false := by simpa using hx
      simp only [collapseWsAux, hx', Bool.false_eq_true, if_false] at hc
      rcases List.mem_cons.mp hc with rfl | hc'
      · exact Or.inl (List.mem_cons_self c xs)
      · rcases ih false c hc' with h | h
        · exact Or.inl (List.mem_cons_of_mem x h)
        · exact Or.inr h

/-- The head of the list, if any, is not whitespace. -/
def headNotWs (l : List Char) : Bool :=
  match l.head? with
  | none => true
  | some c => !isWsM c

/-- Collapsed whitespace shape: every whitespace character is a plain
space and no two consecutive characters are both whitespace. -/
def noWsRun : List Char → Bool
  | [] => true
  | c :: cs => ((!isWsM c) || ((c == ' ') && headNotWs cs)) && noWsRun cs

theorem noWsRun_tail {c : Char} {cs : List Char} (h : noWsRun (c :: cs) = true) :
    noWsRun cs = true := by
  simp only [noWsRun, Bool.and_eq_true] at h
  exact h.2

theorem collapseWsAux_headNotWs (s : List Char) :
    headNotWs (collapseWsAux s true) = true := by
  induction s with
  | nil => rfl
  | cons x xs ih =>
    by_cases hx : isWsM x
    · simpa [collapseWsAux, hx] using ih
    · have hx' : isWsM x = false := by simpa using hx
      simp [collapseWsAux, hx', headNotWs]

theorem noWsRun_collapseWsAux : ∀ (s : List Char) (b : Bool),
    noWsRun (collapseWsAux s b) = true := by
  intro s
  induction s with
  | nil => intro b; rfl
  | cons x xs ih =>
    intro b
    by_cases hx : isWsM x
    · cases b with
      | true => simpa [collapseWsAux, hx] using ih true
      | false =>
        simp only [collapseWsAux, hx, if_pos rfl, Bool.false_eq_true, if_false]
        simp only [noWsRun, Bool.and_eq_true]
        refine ⟨?_, ih true⟩
        simp [collapseWsAux_headNotWs xs]
    · have hx' : isWsM x = false := by simpa using hx
      simp only [collapseWsAux, hx', Bool.false_eq_true, if_false]
      simp only [noWsRun, Bool.and_eq_true]
      exact ⟨by simp [hx'], ih false⟩

theorem collapseWsAux_fix : ∀ (n : Nat) (s : List Char), s.length ≤ n →
    noWsRun s = true → collapseWsAux s false = s := by
  intro n
  induction n with
  | zero =>
    intro s hs _
    cases s with
    | nil => rfl
    | cons c cs => simp at hs
  | succ n ih =>
    intro s hs h
    cases s with
    | nil => rfl
    | cons c cs =>
      simp only [noWsRun, Bool.and_eq_true, Bool.or_eq_true] at h
      by_cases hc : isWsM c
      · have hsp : (c == ' ') = true ∧ headNotWs cs = true := by
          rcases h.1 with h1 | h1
          · rw [hc] at h1; simp at h1
          · exact h1
        have hceq : c = ' ' := by simpa using hsp.1
        subst hceq
        cases cs with
        | nil => rfl
        | cons d ds =>
          have hd : isWsM d = false := by
            have := hsp.2
            simpa [headNotWs] using this
          have hds : collapseWsAux ds false = ds := by
            refine ih ds (by simp at hs; omega) ?_
            exact noWsRun_tail h.2
          simp [collapseWsAux, hc, hd, hds]
      · have hc' : isWsM c = false := by simpa using hc
        simp only [collapseWsAux, hc', Bool.false_eq_true, if_false]
        rw [ih cs (by simp at hs; omega) h.2]

theorem collapseWs_fix {s : List Char} (h : noWsRun s = true) : collapseWs s = s :=
  collapseWsAux_fix s.length s (Nat.le_refl _) h

theorem headNotWs_eq_of_head?_eq {l l' : List Char} (h : l.head? = l'.head?) :
    headNotWs l = headNotWs l' := by
  simp [headNotWs, h]

theorem noWsRun_dropTrailingWs {s : List Char} (h : noWsRun s = true) :
    noWsRun (dropTrailingWs s) = true := by
  induction s with
  | nil => rfl
  | cons c cs ih =>
    have h2 : noWsRun cs = true := noWsRun_tail h
    have h1 : (!isWsM c) = true ∨ ((c == ' ') = true ∧ headNotWs cs = true) := by
      have h' := h
      simp only [noWsRun, Bool.and_eq_true, Bool.or_eq_true] at h'
      exact h'.1
    simp only [dropTrailingWs]
    by_cases hcond : (dropTrailingWs cs).isEmpty && isWsM c
    · simp [hcond, noWsRun]
    · rw [if_neg (by simpa using hcond)]
      simp only [noWsRun, Bool.and_eq_true, Bool.or_eq_true]
      refine ⟨?_, ih h2⟩
      rcases h1 with h1 | h1
      · exact Or.inl h1
      · refine Or.inr ⟨h1.1, ?_⟩
        rcases heq : dropTrailingWs cs with _ | ⟨d, ds⟩
        · rfl
        · have hh : (dropTrailingWs cs).head? = cs.head? :=
            dropTrailingWs_head? cs (by simp [heq])
          rw [← heq, headNotWs_eq_of_head?_eq hh]
          exact h1.2

theorem noWsRun_dropWhile {s : List Char} (h : noWsRun s = true) :
    noWsRun (s.dropWhile isWsM) = true := by
  induction s with
  | nil => simpa using h
  | cons c cs ih =>
    by_cases hc : isWsM c
    · rw [List.dropWhile_cons_of_pos (by simpa using hc)]
      exact ih (noWsRun_tail h)
    · rwa [List.dropWhile_cons_of_neg (by simpa using hc)]

theorem noWsRun_stripList {s : List Char} (h : noWsRun s = true) :
    noWsRun (stripList s) = true :=
  noWsRun_dropTrailingWs (noWsRun_dropWhile h)

theorem dropWhile_id_of_headNotWs {s : List Char} (h : headNotWs s = true) :
    s.dropWhile isWsM = s := by
  cases s with
  | nil => rfl
  | cons c cs =>
    have : isWsM c = false := by simpa [headNotWs] using h
    rw [List.dropWhile_cons_of_neg (by simp [this])]

theorem dropTrailingWs_id_of_last {s : List Char}
    (h : ∀ x ∈ s.getLast?, isWsM x = false) : dropTrailingWs s = s := by
  induction s with
  | nil => rfl
  | cons c cs ih =>
    cases cs with
    | nil =>
      have hc : isWsM c = false := h c (by simp)
      simp [dropTrailingWs, hc]
    | cons d ds =>
      have hcs : dropTrailingWs (d :: ds) = d :: ds := by
        refine ih ?_
        intro x hx
        refine h x ?_
        rwa [List.getLast?_cons_cons]
      show (if (dropTrailingWs (d :: ds)).isEmpty && isWsM c then []
        else c :: dropTrailingWs (d :: ds)) = c :: d :: ds
      rw [hcs]
      simp

theorem stripList_id {s : List Char} (hh : headNotWs s = true)
    (hl : ∀ x ∈ s.getLast?, isWsM x = false) : stripList s = s := by
  rw [stripList, dropWhile_id_of_headNotWs hh, dropTrailingWs_id_of_last hl]

theorem headNotWs_stripList (s : List Char) : headNotWs (stripList s) = true := by
  rcases heq : stripList s with _ | ⟨c, cs⟩
  · rfl
  · have hedge := stripList_edgeClean s (by simp [heq])
    rw [heq] at hedge
    have := hedge.2.1 c (by simp)
    simp [headNotWs, this]

theorem stripList_last_not_ws (s : List Char) :
    ∀ x ∈ (stripList s).getLast?, isWsM x = false := by
  intro x hx
  exact dropTrailingWs_last _ x hx

theorem stripList_idem (s : List Char) : stripList (stripList s) = stripList s :=
  stripList_id (headNotWs_stripList s) (stripList_last_not_ws s)

theorem clean_text_allowed (s : List Char) : ∀ c ∈ clean_text s, allowedChar c = true := by
  intro c hc
  have h1 : c ∈ collapseWs (removeSpecial (nfkd (removeBrackets (unescape
      (removeTags (removeURLs s)))))) := stripList_subset hc
  rcases collapseWsAux_mem _ false c h1 with h2 | h2
  · exact removeSpecial_allowed _ h2
  · subst h2
    decide

theorem allowedChar_nfkd_stable {c : Char} (h : allowedChar c = true) : nfkdChar c = [c] := by
  have h1 : c ≠ 'é' := by rintro rfl; exact absurd h (by decide)
  have h2 : c ≠ 'ﬁ' := by rintro rfl; exact absurd h (by decide)
  have h3 : c ≠ '²' := by rintro rfl; exact absurd h (by decide)
  have h4 : c ≠ ' ' := by rintro rfl; exact absurd h (by decide)
  have b1 : (c == 'é') = false := by simpa using h1
  have b2 : (c == 'ﬁ') = false := by simpa using h2
  have b3 : (c == '²') = false := by simpa using h3
  have b4 : (c == ' ') = false := by simpa using h4
  simp [nfkdChar, decompTable, List.lookup, b1, b2, b3, b4]

theorem isBracket_not_allowed : ∀ c, isBracket c = true → allowedChar c = false := by
  intro c hb
  simp only [isBracket, Bool.or_eq_true, decide_eq_true_eq] at hb
  rcases hb with ((((rfl | rfl) | rfl) | rfl) | rfl) | rfl <;> decide

/-- C4: text normalization is idempotent; applying `clean_text` twice
yields the same result as applying it once.  Every character surviving
the first pass is in the whitelisted class, which contains no URL
slash, no tag bracket, no ampersand, no grouping bracket and no
decomposable character, and the first pass leaves whitespace collapsed
and stripped, so every stage of the second pass is the identity. -/
theorem clean_text_idempotent (s : List Char) :
    clean_text (clean_text s) = clean_text s := by
  have hall : ∀ c ∈ clean_text s, allowedChar c = true := clean_text_allowed s
  have hslash : '/' ∉ clean_text s := fun hm => absurd (hall '/' hm) (by decide)
  have hlt : '<' ∉ clean_text s := fun hm => absurd (hall '<' hm) (by decide)
  have hamp : '&' ∉ clean_text s := fun hm => absurd (hall '&' hm) (by decide)
  have hbr : ∀ c ∈ clean_text s, isBracket c = false := by
    intro c hc
    by_cases hb : isBracket c = true
    · have hfalse := isBracket_not_allowed c hb
      have htrue := hall c hc
      rw [hfalse] at htrue
      exact absurd htrue (by simp)
    · simpa using hb
  have hnf : ∀ c ∈ clean_text s, nfkdChar c = [c] :=
    fun c hc => allowedChar_nfkd_stable (hall c hc)
  have hrun : noWsRun (clean_text s) = true :=
    noWsRun_stripList (noWsRun_collapseWsAux _ false)
  have hhead : headNotWs (clean_text s) = true := headNotWs_stripList _
  have hlast : ∀ x ∈ (clean_text s).getLast?, isWsM x = false := stripList_last_not_ws _
  calc clean_text (clean_text s)
      = stripList (collapseWs (removeSpecial (nfkd (removeBrackets (unescape
          (removeTags (removeURLs (clean_text s)))))))) := rfl
    _ = clean_text s := by
        rw [removeURLs_id hslash, removeTags_id hlt, unescape_id hamp,
          removeBrackets_id hbr, nfkd_id hnf, removeSpecial_id hall,
          collapseWs_fix hrun, stripList_id hhead hlast]
